import Mathlib

/-!
Shallow embedding of the PDF Q&A server pipeline (src/server/index.js):
text cleaning (cleanText), sliding-window chunking (chunkText), batched
embedding with per-item fallback (embedTexts), best-effort session vector
deletion (deleteSessionVectors), vector record construction (buildVectors),
and the upload / ask request handlers. Remote services (embedding API,
vector index, generation model, filesystem) are modelled as oracles, and
the handlers additionally report observable traces (remote calls made,
temp-file unlink attempts).
-/

/-- JavaScript whitespace class: the characters matched by the regex class
backslash-s and removed by String.trim (WhiteSpace plus LineTerminator). -/
def isJsSpace (c : Char) : Bool :=
  let n := c.toNat
  n == 0x9 || n == 0xA || n == 0xB || n == 0xC || n == 0xD || n == 0x20 ||
  n == 0xA0 || n == 0x1680 || (0x2000 ≤ n && n ≤ 0x200A) || n == 0x2028 ||
  n == 0x2029 || n == 0x202F || n == 0x205F || n == 0x3000 || n == 0xFEFF

/-- Characters replaced by a space in cleanText: control characters
U+0000-U+001F and U+007F-U+009F, general punctuation U+2000-U+206F,
superscripts and subscripts U+2070-U+209F, currency symbols U+20A0-U+20CF,
and letterlike symbols U+2100-U+214F. -/
def isRemoved (c : Char) : Bool :=
  let n := c.toNat
  (n ≤ 0x1F) || (0x7F ≤ n && n ≤ 0x9F) ||
  (0x2000 ≤ n && n ≤ 0x206F) || (0x2070 ≤ n && n ≤ 0x209F) ||
  (0x20A0 ≤ n && n ≤ 0x20CF) || (0x2100 ≤ n && n ≤ 0x214F)

/-- Global replacement of a two-character pattern, as JavaScript
String.replace with a global regex: scan left to right, on a match emit the
replacement and resume after the matched characters (the replacement text is
not rescanned). -/
def replace2 (a b : Char) (rep : List Char) : List Char → List Char
  | [] => []
  | [x] => [x]
  | x :: y :: rest =>
    if x = a ∧ y = b then rep ++ replace2 a b rep rest
    else x :: replace2 a b rep (y :: rest)

/-- Global replacement of a three-character pattern, same semantics as
replace2. -/
def replace3 (a b c : Char) (rep : List Char) : List Char → List Char
  | [] => []
  | [x] => [x]
  | [x, y] => [x, y]
  | x :: y :: z :: rest =>
    if x = a ∧ y = b ∧ z = c then rep ++ replace3 a b c rep rest
    else x :: replace3 a b c rep (y :: z :: rest)

/-- The five mojibake symbol replacements of cleanText, applied in source
order.  The patterns are the exact UTF-16 code points that appear in the
source literals. -/
def applyReplacements (s : List Char) : List Char :=
  replace3 (Char.ofNat 0xE2) (Char.ofNat 0x2C6) (Char.ofNat 0x161) ("sqrt ").toList
  (replace2 (Char.ofNat 0xCF) (Char.ofNat 0x20AC) ("pi ").toList
  (replace3 (Char.ofNat 0xE2) (Char.ofNat 0x2C6) (Char.ofNat 0x2020) ("triangle ").toList
  (replace3 (Char.ofNat 0xE2) (Char.ofNat 0x2C6) (Char.ofNat 0x20) ("angle ").toList
  (replace2 (Char.ofNat 0xC2) (Char.ofNat 0xB0) (" degrees ").toList s))))

/-- The character-class removals of cleanText: each removed character is
replaced by a single space. -/
def removeMap (s : List Char) : List Char :=
  s.map (fun c => if isRemoved c then ' ' else c)

/-- Whitespace collapsing, JavaScript replace of one-or-more whitespace by a
single space.  The flag records whether we are inside a whitespace run whose
single replacement space has already been emitted. -/
def collapseAux : Bool → List Char → List Char
  | _, [] => []
  | inRun, c :: cs =>
    if isJsSpace c then
      if inRun then collapseAux true cs else ' ' :: collapseAux true cs
    else c :: collapseAux false cs

/-- Whitespace collapsing entry point. -/
def collapseWs (s : List Char) : List Char := collapseAux false s

/-- JavaScript String.trim: drop whitespace from both ends. -/
def trimWs (s : List Char) : List Char :=
  ((s.dropWhile isJsSpace).reverse.dropWhile isJsSpace).reverse

/-- The cleaning pipeline of cleanText before the length checks:
symbol replacements, character-class removals, whitespace collapsing,
trimming. -/
def cleanCore (text : List Char) : List Char :=
  trimWs (collapseWs (removeMap (applyReplacements text)))

/-- cleanText of src/server/index.js: empty input returns empty; otherwise
run the cleaning pipeline, reject results shorter than 10 characters, and
truncate results longer than 8000 characters. -/
def cleanText (text : List Char) : List Char :=
  if text = [] then []
  else
    let cleaned := cleanCore text
    if cleaned.length < 10 then []
    else if cleaned.length > 8000 then cleaned.take 8000
    else cleaned

/-- JavaScript String.slice with clamping of negative and out-of-range
indices. -/
def jsSlice (s : List Char) (a b : Int) : List Char :=
  let len : Int := s.length
  let lo := if a < 0 then max (len + a) 0 else min a len
  let hi := if b < 0 then max (len + b) 0 else min b len
  (s.take hi.toNat).drop lo.toNat

/-- The while loop of chunkText, with explicit fuel: each iteration slices a
window of raw length maxLen at offset i, cleans it, keeps it when nonempty,
and advances i by maxLen - 200.  Returns none when the fuel runs out before
the loop condition i < text.length fails. -/
def chunkLoop (maxLen : Int) (text : List Char) :
    Nat → Int → List (List Char) → Option (List (List Char))
  | 0, i, acc => if i < (text.length : Int) then none else some acc.reverse
  | n + 1, i, acc =>
    if i < (text.length : Int) then
      let cleanedChunk := cleanText (jsSlice text i (i + maxLen))
      chunkLoop maxLen text n (i + (maxLen - 200))
        (if cleanedChunk = [] then acc else cleanedChunk :: acc)
    else some acc.reverse

/-- chunkText of src/server/index.js, as a fuelled loop (the source loop
does not terminate when maxLen - 200 is not positive, see the termination
claim). -/
def chunkText (fuel : Nat) (text : List Char) (maxLen : Int) :
    Option (List (List Char)) :=
  chunkLoop maxLen text fuel 0 []

/-- Control characters in the usual sense: U+0000-U+001F and U+007F-U+009F. -/
def isControlChar (c : Char) : Bool :=
  c.toNat ≤ 0x1F || (0x7F ≤ c.toNat && c.toNat ≤ 0x9F)

/-- Modelled from the spec: a printable character, read as any character
that is not a control character.  Used only to state the spec claim about
texts with at least 10 printable characters. -/
def isPrintableChar (c : Char) : Bool := !(isControlChar c)

/-- A character that survives the cleaning pipeline as content: neither
JavaScript whitespace nor in any character class removed by cleanText. -/
def isGoodChar (c : Char) : Bool := !(isJsSpace c) && !(isRemoved c)

/-- Adjacent characters are not both whitespace. -/
def noTwoSpaces (x y : Char) : Prop := ¬(isJsSpace x = true ∧ isJsSpace y = true)

/-- The head of the list, when present, is not whitespace. -/
def headOk : List Char → Prop
  | [] => True
  | c :: _ => isJsSpace c = false

/-- Batches of a fixed size, in order, as the for loops with step batchSize
produce them.  The second list accumulates the current batch in reverse and
the counter is the remaining capacity of the current batch. -/
def chunksOfAux (n : Nat) : List α → List α → Nat → List (List α)
  | [], cur, _ => if cur.isEmpty then [] else [cur.reverse]
  | x :: xs, cur, k =>
    if k = 0 then cur.reverse :: chunksOfAux n xs [x] (n - 1)
    else chunksOfAux n xs (x :: cur) (k - 1)

/-- Split a list into consecutive batches of size n (the last batch may be
shorter). -/
def chunksOf (n : Nat) (l : List α) : List (List α) :=
  if n = 0 then [] else chunksOfAux n l [] n

/-- Outcome of one remote batch-embed call: either the call throws, or it
returns a response whose embeddings field may be missing (malformed
response) or any list, including the empty one. -/
inductive BatchResult where
  | throw
  | ok (embeddings : Option (List (List Int)))

/-- The remote embedding service as seen by embedTexts: a batch operation
and a single-item operation (none models a thrown error). -/
structure EmbedOracle where
  batch : List (List Char) → BatchResult
  single : List Char → Option (List Int)

/-- Processing of one batch inside embedTexts: a successful response with a
nonempty embeddings field contributes its embeddings; a response with a
missing or empty embeddings field only logs a warning and contributes
nothing; a thrown batch error falls back to one single-item call per text of
the batch, and a thrown single-item error skips just that text.  The second
component is the list of texts sent to the single-item operation. -/
def runBatch (o : EmbedOracle) (batch : List (List Char)) :
    List (List Int) × List (List Char) :=
  match o.batch batch with
  | BatchResult.ok (some es) => if 0 < es.length then (es, []) else ([], [])
  | BatchResult.ok none => ([], [])
  | BatchResult.throw => (batch.filterMap o.single, batch)

/-- The one error embedTexts itself throws. -/
inductive EmbedError where
  | noValidInput
deriving DecidableEq

/-- Observable outcome of embedTexts: the returned embeddings (or the
propagated error), together with the trace of remote calls that were made:
the batches sent to the batch operation and the texts sent to the
single-item operation. -/
structure EmbedOutcome where
  result : Except EmbedError (List (List Int))
  batchCalls : List (List (List Char))
  singleCalls : List (List Char)

/-- embedTexts of src/server/index.js: clean and filter the inputs, throw
when nothing survives, then process the remaining texts in batches of 10
sequentially, concatenating the embeddings contributed by each batch. -/
def embedTexts (o : EmbedOracle) (texts : List (List Char)) : EmbedOutcome :=
  let cleanedTexts := (texts.map cleanText).filter (fun t => 0 < t.length)
  if cleanedTexts.length = 0 then
    ⟨Except.error EmbedError.noValidInput, [], []⟩
  else
    let batches := chunksOf 10 cleanedTexts
    ⟨Except.ok ((batches.map (fun b => (runBatch o b).1)).flatten),
     batches,
     (batches.map (fun b => (runBatch o b).2)).flatten⟩

/-- The vector index as seen by deleteSessionVectors: the session-filtered
query returns the ids of the matching records (or throws), and deleteMany
deletes one batch of ids (or throws). -/
structure PineOracle where
  query : String → Except String (List String)
  deleteMany : List String → Except String Unit

/-- Sequential batch deletion: stops at the first thrown error. -/
def deleteBatches (o : PineOracle) : List (List String) → Except String Unit
  | [] => Except.ok ()
  | b :: bs =>
    match o.deleteMany b with
    | Except.error e => Except.error e
    | Except.ok _ => deleteBatches o bs

/-- The body of the try block of deleteSessionVectors: query all vector ids
of the session, and when there are any, delete them in batches of 1000. -/
def deleteSessionVectorsBody (o : PineOracle) (sessionId : String) :
    Except String Unit :=
  match o.query sessionId with
  | Except.error e => Except.error e
  | Except.ok matchIds =>
    if 0 < matchIds.length then deleteBatches o (chunksOf 1000 matchIds)
    else Except.ok ()

/-- deleteSessionVectors of src/server/index.js: the whole body runs inside
a try block whose catch only logs, so any thrown error is swallowed and the
function always returns normally to its caller. -/
def deleteSessionVectors (o : PineOracle) (sessionId : String) :
    Except String Unit :=
  match deleteSessionVectorsBody o sessionId with
  | Except.ok _ => Except.ok ()
  | Except.error _ => Except.ok ()

/-- Metadata stored with each vector record. -/
structure VectorMeta where
  text : List Char
  source : String
  chunk_index : Nat
  session_id : String
  uploaded_at : String
deriving DecidableEq

/-- A record upserted into the vector index. -/
structure VectorRecord where
  id : String
  values : List Int
  metadata : VectorMeta
deriving DecidableEq

/-- Vector record construction of the upload route: truncate the embeddings
to the shorter of the two lists and pair entry i with chunk i. -/
def buildVectors (sessionId source uploadedAt : String)
    (validChunks : List (List Char)) (embeddings : List (List Int)) :
    List VectorRecord :=
  let minLength := min embeddings.length validChunks.length
  (embeddings.take minLength).mapIdx (fun i emb =>
    { id := sessionId ++ "_" ++ toString i
      values := emb
      metadata :=
        { text := validChunks.getD i []
          source := source
          chunk_index := i
          session_id := sessionId
          uploaded_at := uploadedAt } })

/-- What multer hands to the upload route about the received file. -/
structure FileMeta where
  path : String
  originalname : String
deriving DecidableEq

/-- Responses of the upload route that matter to the claims. -/
inductive UploadResp where
  | badRequest (msg : String)
  | okUploaded (uploadedChunks : Nat) (sessionId : String)
  | serverError (msg : String)
deriving DecidableEq

/-- The collaborators of the upload route: the vector index used by the
best-effort deletion, the text extraction (readFile plus pdf parsing, an
error models a thrown exception, the payload is the extracted text), the
embedding service, the upsert operation, and the timestamp used for the
metadata. -/
structure UploadOracle where
  pine : PineOracle
  extract : Except String (List Char)
  embed : EmbedOracle
  upsert : List VectorRecord → Except String Unit
  now : String

/-- Sequential upsert of the vector batches: the first thrown error
propagates. -/
def upsertBatches (upsert : List VectorRecord → Except String Unit) :
    List (List VectorRecord) → Except String Unit
  | [] => Except.ok ()
  | b :: bs =>
    match upsert b with
    | Except.error e => Except.error e
    | Except.ok _ => upsertBatches upsert bs

/-- The upload route of src/server/index.js.  The Bool part of the result
records whether fs.unlink was called on the uploaded temp file.  Control
flow follows the source: missing file and missing session id return 400
early; the best-effort deletion runs next; extraction errors are caught and
unlink the file; empty extracted text and zero surviving chunks unlink and
return 400; an embedTexts error is caught, unlinks, and returns 500; then
records are built and upserted in batches of 100, an upsert error is caught,
unlinks, and returns 500; on success the file is unlinked and the route
returns the number of upserted vectors. -/
def uploadHandler (o : UploadOracle) (file : Option FileMeta)
    (sessionId : Option String) : UploadResp × Bool :=
  match file with
  | none => (UploadResp.badRequest "No file uploaded", false)
  | some f =>
    match sessionId with
    | none => (UploadResp.badRequest "Missing session ID", false)
    | some sid =>
      let _del := deleteSessionVectors o.pine sid
      match o.extract with
      | Except.error msg => (UploadResp.serverError msg, true)
      | Except.ok text =>
        if trimWs text = [] then
          (UploadResp.badRequest "PDF contains no readable text content.", true)
        else
          let chunks := (chunkText (text.length + 1) text 1000).getD []
          let validChunks :=
            chunks.filter (fun c => !c.isEmpty && !(trimWs c).isEmpty)
          if validChunks.length = 0 then
            (UploadResp.badRequest
              "PDF contains no processable text content after cleaning.", true)
          else
            match (embedTexts o.embed validChunks).result with
            | Except.error EmbedError.noValidInput =>
              (UploadResp.serverError "No valid text chunks after cleaning", true)
            | Except.ok embeddings =>
              let vectors :=
                buildVectors sid f.originalname o.now validChunks embeddings
              match upsertBatches o.upsert (chunksOf 100 vectors) with
              | Except.error msg => (UploadResp.serverError msg, true)
              | Except.ok _ => (UploadResp.okUploaded vectors.length sid, true)

/-- The collaborators of the ask route: question embedding, the
session-scoped similarity query (each match is used only through its
metadata, so a match is modelled as a VectorMeta), and the generation
service. -/
structure AskOracle where
  embedQ : List Char → Except String (List Int)
  query : List Int → Nat → String → Except String (List VectorMeta)
  generate : List Char → Except String (List Char)

/-- One entry of the sources array of an answer. -/
structure SourceRef where
  source : String
  chunk_index : Nat
  session_id : String
deriving DecidableEq

/-- Responses of the ask route that matter to the claims.  The zero-match
response of the source omits the session id field, hence the Option. -/
inductive AskResp where
  | badRequest (msg : String)
  | answerResp (answer : List Char) (sources : List SourceRef)
      (session_id : Option String)
  | serverError (msg : String)
deriving DecidableEq

/-- The canned answer returned when the similarity query has no matches. -/
def noInfoAnswer : List Char :=
  ("I couldn\x27t find any relevant information in the current document. Please make sure you have uploaded a PDF document for this session.").toList

/-- The fixed instruction preamble of the generation prompt. -/
def systemInstruction : List Char :=
  ("You are a helpful assistant. Use the provided context from the uploaded PDF document to answer the question. If the answer is not contained within the context, say that you cannot find the answer in the provided document. Answer concisely and accurately based only on the document content.").toList

/-- Prompt assembly of the ask route: instruction, blank line, context
header, contexts joined by a delimiter line, then the original question. -/
def fullPromptOf (contexts question : List Char) : List Char :=
  systemInstruction ++ ("\n\n").toList ++
  ("Context from the uploaded document:\n").toList ++ contexts ++
  ("\n\nQuestion: ").toList ++ question

/-- The ask route of src/server/index.js.  The Bool part of the result
records whether the generation service was called.  An empty question or a
missing session id return 400; a question that cleans to empty returns 400;
embedding and query errors return 500; zero matches return the canned
answer with empty sources (and no session id field) without calling the
generation service; otherwise the prompt is assembled from the match texts
and the generated answer is returned with one source per match. -/
def askHandler (o : AskOracle) (question : List Char)
    (sessionId : Option String) (topK : Nat) : AskResp × Bool :=
  if question.isEmpty then (AskResp.badRequest "Missing question", false)
  else
    match sessionId with
    | none => (AskResp.badRequest "Missing session ID", false)
    | some sid =>
      let cleanedQuestion := cleanText question
      if cleanedQuestion.isEmpty then
        (AskResp.badRequest "Question contains no valid content", false)
      else
        match o.embedQ cleanedQuestion with
        | Except.error msg => (AskResp.serverError msg, false)
        | Except.ok qEmb =>
          match o.query qEmb topK sid with
          | Except.error msg => (AskResp.serverError msg, false)
          | Except.ok matchList =>
            if matchList.length = 0 then
              (AskResp.answerResp noInfoAnswer [] none, false)
            else
              let contexts :=
                List.intercalate ("\n---\n").toList (matchList.map (fun m => m.text))
              match o.generate (fullPromptOf contexts question) with
              | Except.error msg => (AskResp.serverError msg, true)
              | Except.ok answer =>
                (AskResp.answerResp answer
                  (matchList.map (fun m =>
                    { source := m.source
                      chunk_index := m.chunk_index
                      session_id := m.session_id }))
                  (some sid), true)

/-- Ten letters: the shortest text that survives the 10-character
minimum of cleanText unchanged. -/
def tenAs : List Char := List.replicate 10 'a'

/-- Input breaking idempotence of cleanText: after the digits, the two lead
characters of the angle mojibake sequence followed by U+2000; the removal
stage turns U+2000 into a plain space, completing the angle pattern for a
second pass. -/
def xBadC4 : List Char :=
  ("0123456789").toList ++
  [Char.ofNat 0xE2, Char.ofNat 0x2C6, Char.ofNat 0x2000] ++ ("xyz").toList

/-- Ten printable characters, the first of which (the euro sign, U+20AC)
falls in the stripped currency block. -/
def tEuroC5 : List Char := Char.ofNat 0x20AC :: List.replicate 9 'a'

/-- 900 repeated letters: shorter than the default window of 1000 but longer
than the 800-character step. -/
def a900C2 : List Char := List.replicate 900 'a'

/-- Embedding oracle whose batch call succeeds with an empty embeddings
field and whose single-item call always succeeds. -/
def cexO1 : EmbedOracle :=
  { batch := fun _ => BatchResult.ok (some [])
    single := fun _ => some [7] }

/-- Ten letters b, a second valid chunk for the fallback witness. -/
def tenBs : List Char := List.replicate 10 'b'

/-- Embedding oracle whose batch call always throws and whose single-item
call succeeds only on tenAs. -/
def cexO1b : EmbedOracle :=
  { batch := fun _ => BatchResult.throw
    single := fun t => if t = tenAs then some [5] else none }

/-- An embedding oracle that always fails, for the fail-fast witness. -/
def cexO6 : EmbedOracle :=
  { batch := fun _ => BatchResult.throw
    single := fun _ => none }

/-- A fully successful upload oracle, used to exercise the upload route. -/
def cexO3 : UploadOracle :=
  { pine := { query := fun _ => Except.ok [], deleteMany := fun _ => Except.ok () }
    extract := Except.ok (List.replicate 20 'a')
    embed := { batch := fun _ => BatchResult.ok (some [[1]])
               single := fun _ => some [1] }
    upsert := fun _ => Except.ok ()
    now := "2024-01-01T00:00:00.000Z" }

/-- The file metadata of the failing upload request. -/
def cexFile : FileMeta := { path := "uploads/abc123", originalname := "doc.pdf" }

/-- An ask oracle whose similarity query returns no matches. -/
def cexO8 : AskOracle :=
  { embedQ := fun _ => Except.ok [1]
    query := fun _ _ _ => Except.ok []
    generate := fun _ => Except.ok ("yes").toList }

theorem collapseAux_cons_sp_false {a : Char} (cs : List Char)
    (ha : isJsSpace a = true) :
    collapseAux false (a :: cs) = ' ' :: collapseAux true cs := by
  simp [collapseAux, ha]

theorem collapseAux_cons_sp_true {a : Char} (cs : List Char)
    (ha : isJsSpace a = true) :
    collapseAux true (a :: cs) = collapseAux true cs := by
  simp [collapseAux, ha]

theorem collapseAux_cons_nonsp {a : Char} (b : Bool) (cs : List Char)
    (ha : isJsSpace a = false) :
    collapseAux b (a :: cs) = a :: collapseAux false cs := by
  cases b <;> simp [collapseAux, ha]

theorem replace2_of_not_mem (a b : Char) (rep : List Char) (s : List Char)
    (h : a ∉ s) : replace2 a b rep s = s := by
  induction s using replace2.induct a b rep with
  | case1 => rfl
  | case2 x => rfl
  | case3 x y rest hm ih =>
    exact absurd (hm.1 ▸ List.mem_cons_self x (y :: rest)) h
  | case4 x y rest hm ih =>
    simp only [replace2, if_neg hm]
    rw [ih (fun hy => h (List.mem_cons_of_mem x hy))]

theorem replace3_of_not_mem (a b c : Char) (rep : List Char) (s : List Char)
    (h : a ∉ s) : replace3 a b c rep s = s := by
  induction s using replace3.induct a b c rep with
  | case1 => rfl
  | case2 x => rfl
  | case3 x y => rfl
  | case4 x y z rest hm ih =>
    exact absurd (hm.1 ▸ List.mem_cons_self x (y :: z :: rest)) h
  | case5 x y z rest hm ih =>
    simp only [replace3, if_neg hm]
    rw [ih (fun hy => h (List.mem_cons_of_mem x hy))]

theorem countP_replace2 (a b : Char) (rep : List Char) (p : Char → Bool)
    (hrep : List.countP p [a, b] ≤ List.countP p rep) (s : List Char) :
    List.countP p s ≤ List.countP p (replace2 a b rep s) := by
  induction s using replace2.induct a b rep with
  | case1 => simp
  | case2 x => simp [replace2]
  | case3 x y rest hm ih =>
    obtain ⟨hx, hy⟩ := hm
    subst hx; subst hy
    have e : replace2 x y rep (x :: y :: rest) = rep ++ replace2 x y rep rest := by
      simp [replace2]
    rw [e]
    simp only [List.countP_append, List.countP_cons] at *
    omega
  | case4 x y rest hm ih =>
    simp only [replace2, if_neg hm, List.countP_cons] at *
    omega

theorem countP_replace3 (a b c : Char) (rep : List Char) (p : Char → Bool)
    (hrep : List.countP p [a, b, c] ≤ List.countP p rep) (s : List Char) :
    List.countP p s ≤ List.countP p (replace3 a b c rep s) := by
  induction s using replace3.induct a b c rep with
  | case1 => simp
  | case2 x => simp [replace3]
  | case3 x y => simp [replace3]
  | case4 x y z rest hm ih =>
    obtain ⟨hx, hy, hz⟩ := hm
    subst hx; subst hy; subst hz
    have e : replace3 x y z rep (x :: y :: z :: rest) =
        rep ++ replace3 x y z rep rest := by
      simp [replace3]
    rw [e]
    simp only [List.countP_append, List.countP_cons] at *
    omega
  | case5 x y z rest hm ih =>
    simp only [replace3, if_neg hm, List.countP_cons] at *
    omega

theorem mem_removeMap {c : Char} {s : List Char} (h : c ∈ removeMap s) :
    isRemoved c = false := by
  simp only [removeMap, List.mem_map] at h
  obtain ⟨a, _, ha⟩ := h
  by_cases hr : isRemoved a
  · simp [hr] at ha; subst ha; decide
  · simp [hr] at ha; subst ha; simpa using hr

theorem mem_collapseAux {c : Char} {b : Bool} {s : List Char}
    (h : c ∈ collapseAux b s) : c = ' ' ∨ (c ∈ s ∧ isJsSpace c = false) := by
  induction s generalizing b with
  | nil => simp [collapseAux] at h
  | cons a cs ih =>
    by_cases ha : isJsSpace a
    · by_cases hb : b
      · subst hb
        rw [collapseAux_cons_sp_true cs ha] at h
        rcases ih h with h2 | ⟨hm, hs⟩
        · exact Or.inl h2
        · exact Or.inr ⟨List.mem_cons_of_mem a hm, hs⟩
      · simp only [Bool.not_eq_true] at hb; subst hb
        rw [collapseAux_cons_sp_false cs ha] at h
        rcases List.mem_cons.mp h with h2 | h2
        · exact Or.inl h2
        · rcases ih h2 with h3 | ⟨hm, hs⟩
          · exact Or.inl h3
          · exact Or.inr ⟨List.mem_cons_of_mem a hm, hs⟩
    · have ha2 : isJsSpace a = false := by simpa using ha
      rw [collapseAux_cons_nonsp b cs ha2] at h
      rcases List.mem_cons.mp h with h2 | h2
      · subst h2; exact Or.inr ⟨List.mem_cons_self c cs, ha2⟩
      · rcases ih h2 with h3 | ⟨hm, hs⟩
        · exact Or.inl h3
        · exact Or.inr ⟨List.mem_cons_of_mem a hm, hs⟩

theorem collapseAux_chain (s : List Char) :
    (List.Chain' noTwoSpaces (collapseAux false s) ∧
     List.Chain' noTwoSpaces (collapseAux true s)) ∧
    headOk (collapseAux true s) := by
  induction s with
  | nil => exact ⟨⟨List.chain'_nil, List.chain'_nil⟩, trivial⟩
  | cons a cs ih =>
    obtain ⟨⟨ihf, iht⟩, ihh⟩ := ih
    by_cases ha : isJsSpace a
    · refine ⟨⟨?_, ?_⟩, ?_⟩
      · rw [collapseAux_cons_sp_false cs ha]
        refine List.chain'_cons'.mpr ⟨?_, iht⟩
        intro b hb
        cases hcs : collapseAux true cs with
        | nil => simp [hcs] at hb
        | cons d ds =>
          rw [hcs] at ihh
          have hb2 : b = d := by simp [hcs] at hb; exact hb.symm
          subst hb2
          intro hcontra
          have hbf : isJsSpace b = false := ihh
          rw [hbf] at hcontra
          exact Bool.false_ne_true hcontra.2
      · rw [collapseAux_cons_sp_true cs ha]; exact iht
      · rw [collapseAux_cons_sp_true cs ha]; exact ihh
    · have ha2 : isJsSpace a = false := by simpa using ha
      have hcons : ∀ t, List.Chain' noTwoSpaces t →
          List.Chain' noTwoSpaces (a :: t) := by
        intro t ht
        refine List.chain'_cons'.mpr ⟨?_, ht⟩
        intro b _
        exact fun ⟨h1, _⟩ => by rw [ha2] at h1; exact Bool.false_ne_true h1
      refine ⟨⟨?_, ?_⟩, ?_⟩
      · rw [collapseAux_cons_nonsp false cs ha2]; exact hcons _ ihf
      · rw [collapseAux_cons_nonsp true cs ha2]; exact hcons _ ihf
      · rw [collapseAux_cons_nonsp true cs ha2]; exact ha2

theorem collapseAux_fixed (s : List Char)
    (hch : List.Chain' noTwoSpaces s)
    (hsp : ∀ c ∈ s, isJsSpace c = true → c = ' ') :
    collapseAux false s = s ∧ (headOk s → collapseAux true s = s) := by
  induction s with
  | nil => exact ⟨rfl, fun _ => rfl⟩
  | cons a cs ih =>
    obtain ⟨hrel, htail⟩ := List.chain'_cons'.mp hch
    have ihspec := ih htail (fun c hc => hsp c (List.mem_cons_of_mem a hc))
    by_cases ha : isJsSpace a
    · have ha2 : a = ' ' := hsp a (List.mem_cons_self a cs) ha
      have hcs : headOk cs := by
        cases cs with
        | nil => trivial
        | cons d ds =>
          have hd := hrel d (by simp)
          show isJsSpace d = false
          by_contra hdc
          simp only [Bool.not_eq_false] at hdc
          exact hd ⟨ha, hdc⟩
      have htrue : collapseAux true cs = cs := ihspec.2 hcs
      constructor
      · rw [collapseAux_cons_sp_false cs ha, htrue, ha2]
      · intro hh
        exfalso
        have hf : isJsSpace a = false := hh
        rw [hf] at ha
        exact Bool.false_ne_true ha
    · have ha2 : isJsSpace a = false := by simpa using ha
      refine ⟨?_, fun _ => ?_⟩
      · rw [collapseAux_cons_nonsp false cs ha2, ihspec.1]
      · rw [collapseAux_cons_nonsp true cs ha2, ihspec.1]

theorem chain'_dropWhile {R : Char → Char → Prop} {p : Char → Bool}
    {l : List Char} (h : List.Chain' R l) :
    List.Chain' R (List.dropWhile p l) := by
  induction l with
  | nil => simp only [List.dropWhile_nil]; exact h
  | cons a cs ih =>
    by_cases hp : p a
    · rw [List.dropWhile_cons_of_pos hp]
      exact ih h.tail
    · rwa [List.dropWhile_cons_of_neg hp]

theorem headOk_dropWhile (l : List Char) :
    headOk (List.dropWhile isJsSpace l) := by
  induction l with
  | nil => trivial
  | cons a cs ih =>
    by_cases hp : isJsSpace a
    · rw [List.dropWhile_cons_of_pos hp]; exact ih
    · rw [List.dropWhile_cons_of_neg hp]
      show isJsSpace a = false
      simpa using hp

theorem dropWhile_of_headOk {l : List Char} (h : headOk l) :
    List.dropWhile isJsSpace l = l := by
  cases l with
  | nil => rfl
  | cons a cs =>
    have hf : isJsSpace a = false := h
    exact List.dropWhile_cons_of_neg (by simp [hf])

theorem dropWhile_append_end {p : Char → Bool} {c : Char} (hc : p c = false)
    (l : List Char) :
    ∃ t, List.dropWhile p (l ++ [c]) = t ++ [c] := by
  induction l with
  | nil =>
    refine ⟨[], ?_⟩
    show List.dropWhile p [c] = [] ++ [c]
    simp [List.dropWhile_cons, hc]
  | cons a cs ih =>
    by_cases hp : p a
    · obtain ⟨t, ht⟩ := ih
      exact ⟨t, by rw [List.cons_append, List.dropWhile_cons_of_pos hp, ht]⟩
    · exact ⟨a :: cs, by rw [List.cons_append, List.dropWhile_cons_of_neg hp]⟩

theorem trimWs_lastOk (s : List Char) : headOk (trimWs s).reverse := by
  unfold trimWs
  rw [List.reverse_reverse]
  exact headOk_dropWhile _

theorem trimWs_headOk (s : List Char) : headOk (trimWs s) := by
  unfold trimWs
  cases hu : List.dropWhile isJsSpace s with
  | nil => trivial
  | cons a cs =>
    have ha : isJsSpace a = false := by
      have hh := headOk_dropWhile s
      rw [hu] at hh
      exact hh
    rw [List.reverse_cons]
    obtain ⟨t, ht⟩ := dropWhile_append_end ha cs.reverse
    rw [ht, List.reverse_append]
    simp
    show isJsSpace a = false
    exact ha

theorem trimWs_fixed {s : List Char} (h1 : headOk s) (h2 : headOk s.reverse) :
    trimWs s = s := by
  unfold trimWs
  rw [dropWhile_of_headOk h1, dropWhile_of_headOk h2, List.reverse_reverse]

theorem mem_trimWs {c : Char} {s : List Char} (h : c ∈ trimWs s) : c ∈ s := by
  unfold trimWs at h
  rw [List.mem_reverse] at h
  have h2 := (List.dropWhile_sublist isJsSpace).mem h
  rw [List.mem_reverse] at h2
  exact (List.dropWhile_sublist isJsSpace).mem h2

theorem chain'_trimWs {s : List Char} (h : List.Chain' noTwoSpaces s) :
    List.Chain' noTwoSpaces (trimWs s) := by
  have hsym : ∀ x y, noTwoSpaces x y → flip noTwoSpaces x y := by
    intro x y hxy ⟨ha, hb⟩
    exact hxy ⟨hb, ha⟩
  unfold trimWs
  rw [List.chain'_reverse]
  apply List.Chain'.imp hsym
  apply chain'_dropWhile
  rw [List.chain'_reverse]
  apply List.Chain'.imp hsym
  exact chain'_dropWhile h

theorem countP_dropWhile_eq (p q : Char → Bool)
    (hdisj : ∀ c, q c = true → p c = false) (l : List Char) :
    List.countP p (List.dropWhile q l) = List.countP p l := by
  induction l with
  | nil => rfl
  | cons a cs ih =>
    by_cases hq : q a
    · rw [List.dropWhile_cons_of_pos hq, List.countP_cons, ih, hdisj a hq]
      simp
    · rw [List.dropWhile_cons_of_neg hq]

theorem removeMap_cons (a : Char) (cs : List Char) :
    removeMap (a :: cs) = (if isRemoved a then ' ' else a) :: removeMap cs := rfl

theorem removeMap_of_clean (y : List Char)
    (h : ∀ c ∈ y, isRemoved c = false) : removeMap y = y := by
  induction y with
  | nil => rfl
  | cons a cs ih =>
    rw [removeMap_cons, h a (List.mem_cons_self a cs),
      ih (fun c hc => h c (List.mem_cons_of_mem a hc))]
    rfl

theorem not_removed_of_control {c : Char} (h : isControlChar c = true) :
    isRemoved c = true := by
  unfold isControlChar at h
  unfold isRemoved
  simp only [Bool.or_eq_true, Bool.and_eq_true, decide_eq_true_eq] at h ⊢
  omega

theorem not_control_of_not_removed {c : Char} (h : isRemoved c = false) :
    isControlChar c = false := by
  by_contra hc
  simp only [Bool.not_eq_false] at hc
  rw [not_removed_of_control hc] at h
  exact Bool.true_eq_false.mp h

theorem cleanCore_mem_props (x : List Char) :
    ∀ c ∈ cleanCore x, isRemoved c = false ∧ (isJsSpace c = true → c = ' ') := by
  intro c hc
  unfold cleanCore collapseWs at hc
  have h1 := mem_trimWs hc
  rcases mem_collapseAux h1 with h2 | ⟨h3, h4⟩
  · subst h2; exact ⟨by decide, fun _ => rfl⟩
  · exact ⟨mem_removeMap h3, fun hs => absurd hs (by simp [h4])⟩

theorem cleanCore_chain (x : List Char) :
    List.Chain' noTwoSpaces (cleanCore x) := by
  unfold cleanCore collapseWs
  exact chain'_trimWs ((collapseAux_chain _).1.1)

theorem cleanCore_headOk (x : List Char) : headOk (cleanCore x) :=
  trimWs_headOk (collapseWs (removeMap (applyReplacements x)))

theorem cleanCore_lastOk (x : List Char) : headOk (cleanCore x).reverse :=
  trimWs_lastOk (collapseWs (removeMap (applyReplacements x)))

theorem cleanCore_fixed (y : List Char)
    (hnr : ∀ c ∈ y, isRemoved c = false)
    (hsp : ∀ c ∈ y, isJsSpace c = true → c = ' ')
    (hch : List.Chain' noTwoSpaces y)
    (hhd : headOk y) (hlast : headOk y.reverse)
    (h1 : Char.ofNat 0xC2 ∉ y) (h2 : Char.ofNat 0xE2 ∉ y)
    (h3 : Char.ofNat 0xCF ∉ y) :
    cleanCore y = y := by
  unfold cleanCore collapseWs applyReplacements
  rw [replace2_of_not_mem _ _ _ _ h1, replace3_of_not_mem _ _ _ _ _ h2,
    replace3_of_not_mem _ _ _ _ _ h2, replace2_of_not_mem _ _ _ _ h3,
    replace3_of_not_mem _ _ _ _ _ h2, removeMap_of_clean y hnr,
    (collapseAux_fixed y hch hsp).1]
  exact trimWs_fixed hhd hlast

theorem cleanText_eq_nil_of_short {x : List Char}
    (h : (cleanCore x).length < 10) : cleanText x = [] := by
  by_cases hx : x = []
  · simp [cleanText, hx]
  · simp [cleanText, hx, h]

theorem cleanText_eq_core {x : List Char} (hx : x ≠ [])
    (h10 : ¬(cleanCore x).length < 10) (h8k : ¬(cleanCore x).length > 8000) :
    cleanText x = cleanCore x := by
  simp [cleanText, hx, h10, h8k]

theorem cleanText_eq_take {x : List Char} (hx : x ≠ [])
    (h10 : ¬(cleanCore x).length < 10) (h8k : (cleanCore x).length > 8000) :
    cleanText x = (cleanCore x).take 8000 := by
  simp [cleanText, hx, h10, h8k]

theorem good_of_space {c : Char} (h : isJsSpace c = true) :
    isGoodChar c = false := by
  simp [isGoodChar, h]

theorem good_of_removed {c : Char} (h : isRemoved c = true) :
    isGoodChar c = false := by
  simp [isGoodChar, h]

theorem countP_removeMap_good (s : List Char) :
    List.countP isGoodChar (removeMap s) = List.countP isGoodChar s := by
  induction s with
  | nil => rfl
  | cons a cs ih =>
    rw [removeMap_cons, List.countP_cons, List.countP_cons, ih]
    by_cases hr : isRemoved a
    · rw [if_pos hr, good_of_removed hr]
      have hsp : isGoodChar ' ' = false := by decide
      rw [hsp]
    · rw [if_neg hr]

theorem countP_collapseAux_good (b : Bool) (s : List Char) :
    List.countP isGoodChar (collapseAux b s) = List.countP isGoodChar s := by
  induction s generalizing b with
  | nil => rfl
  | cons a cs ih =>
    by_cases ha : isJsSpace a
    · have hga : isGoodChar a = false := good_of_space ha
      have hgs : isGoodChar ' ' = false := by decide
      by_cases hb : b
      · subst hb
        rw [collapseAux_cons_sp_true cs ha, ih true, List.countP_cons, hga]
        simp
      · simp only [Bool.not_eq_true] at hb; subst hb
        rw [collapseAux_cons_sp_false cs ha, List.countP_cons, hgs, ih true,
          List.countP_cons, hga]
    · have ha2 : isJsSpace a = false := by simpa using ha
      rw [collapseAux_cons_nonsp b cs ha2, List.countP_cons, ih false,
        List.countP_cons]

theorem countP_trimWs_good (s : List Char) :
    List.countP isGoodChar (trimWs s) = List.countP isGoodChar s := by
  have hdisj : ∀ c, isJsSpace c = true → isGoodChar c = false :=
    fun c hc => good_of_space hc
  unfold trimWs
  rw [List.countP_reverse, countP_dropWhile_eq _ _ hdisj,
    List.countP_reverse, countP_dropWhile_eq _ _ hdisj]

theorem countP_applyReplacements_good (s : List Char) :
    List.countP isGoodChar s ≤ List.countP isGoodChar (applyReplacements s) := by
  unfold applyReplacements
  have d1 := countP_replace2 (Char.ofNat 0xC2) (Char.ofNat 0xB0)
    (" degrees ").toList isGoodChar (by decide) s
  have d2 := countP_replace3 (Char.ofNat 0xE2) (Char.ofNat 0x2C6)
    (Char.ofNat 0x20) ("angle ").toList isGoodChar (by decide)
    (replace2 (Char.ofNat 0xC2) (Char.ofNat 0xB0) (" degrees ").toList s)
  have d3 := countP_replace3 (Char.ofNat 0xE2) (Char.ofNat 0x2C6)
    (Char.ofNat 0x2020) ("triangle ").toList isGoodChar (by decide)
    (replace3 (Char.ofNat 0xE2) (Char.ofNat 0x2C6) (Char.ofNat 0x20)
      ("angle ").toList
      (replace2 (Char.ofNat 0xC2) (Char.ofNat 0xB0) (" degrees ").toList s))
  have d4 := countP_replace2 (Char.ofNat 0xCF) (Char.ofNat 0x20AC)
    ("pi ").toList isGoodChar (by decide)
    (replace3 (Char.ofNat 0xE2) (Char.ofNat 0x2C6) (Char.ofNat 0x2020)
      ("triangle ").toList
      (replace3 (Char.ofNat 0xE2) (Char.ofNat 0x2C6) (Char.ofNat 0x20)
        ("angle ").toList
        (replace2 (Char.ofNat 0xC2) (Char.ofNat 0xB0) (" degrees ").toList s)))
  have d5 := countP_replace3 (Char.ofNat 0xE2) (Char.ofNat 0x2C6)
    (Char.ofNat 0x161) ("sqrt ").toList isGoodChar (by decide)
    (replace2 (Char.ofNat 0xCF) (Char.ofNat 0x20AC) ("pi ").toList
      (replace3 (Char.ofNat 0xE2) (Char.ofNat 0x2C6) (Char.ofNat 0x2020)
        ("triangle ").toList
        (replace3 (Char.ofNat 0xE2) (Char.ofNat 0x2C6) (Char.ofNat 0x20)
          ("angle ").toList
          (replace2 (Char.ofNat 0xC2) (Char.ofNat 0xB0) (" degrees ").toList s))))
  omega

theorem countP_cleanCore_good (t : List Char) :
    List.countP isGoodChar t ≤ List.countP isGoodChar (cleanCore t) := by
  have he : List.countP isGoodChar (cleanCore t) =
      List.countP isGoodChar (applyReplacements t) := by
    unfold cleanCore collapseWs
    rw [countP_trimWs_good, countP_collapseAux_good, countP_removeMap_good]
  rw [he]
  exact countP_applyReplacements_good t

/-- Claim C4, counterexample: on the input xBadC4 the cleaning pipeline is
not idempotent even though the result is far below the 8000-character cap:
the removal stage turns U+2000 into a space, which completes the angle
mojibake pattern, so the second pass performs a replacement the first pass
did not. -/
theorem cleanText_not_idempotent :
    (cleanCore xBadC4).length ≤ 8000 ∧
    cleanText (cleanText xBadC4) ≠ cleanText xBadC4 := by
  constructor
  · decide
  · decide

/-- Claim C4, amended: the Text Normalizer is idempotent on every input
whose cleaned result is not truncated by the 8000-character cap and contains
none of the lead characters of the five mojibake symbol patterns (U+00C2,
U+00E2, U+00CF); without the last condition whitespace normalization can
complete a pattern and trigger a second-pass replacement, as the
counterexample shows. -/
theorem cleanText_idempotent (x : List Char)
    (hcap : (cleanCore x).length ≤ 8000)
    (hlead : ∀ c ∈ cleanText x,
      c ≠ Char.ofNat 0xC2 ∧ c ≠ Char.ofNat 0xE2 ∧ c ≠ Char.ofNat 0xCF) :
    cleanText (cleanText x) = cleanText x := by
  by_cases hx : x = []
  · subst hx; rfl
  · by_cases h10 : (cleanCore x).length < 10
    · rw [cleanText_eq_nil_of_short h10]; rfl
    · have h8k : ¬(cleanCore x).length > 8000 := by omega
      have hcx : cleanText x = cleanCore x := cleanText_eq_core hx h10 h8k
      rw [hcx] at hlead ⊢
      have hprops := cleanCore_mem_props x
      have hfix : cleanCore (cleanCore x) = cleanCore x :=
        cleanCore_fixed (cleanCore x)
          (fun c hc => (hprops c hc).1)
          (fun c hc => (hprops c hc).2)
          (cleanCore_chain x) (cleanCore_headOk x) (cleanCore_lastOk x)
          (fun hm => (hlead _ hm).1 rfl)
          (fun hm => (hlead _ hm).2.1 rfl)
          (fun hm => (hlead _ hm).2.2 rfl)
      have hynil : cleanCore x ≠ [] := by
        intro hn
        rw [hn] at h10
        exact h10 (by simp)
      rw [cleanText_eq_core hynil (by rw [hfix]; exact h10)
        (by rw [hfix]; exact h8k), hfix]

/-- Claim C4, witness: the idempotence theorem applied to a concrete
ten-letter input. -/
theorem cleanText_idempotent_witness :
    cleanText (cleanText tenAs) = cleanText tenAs :=
  cleanText_idempotent tenAs (by decide) (by decide)

/-- Claim C5, counterexample: a text of exactly ten printable characters
(a euro sign followed by nine letters) whose normalization is empty, because
the euro sign lies in the stripped currency block and the trimmed remainder
has only nine characters. -/
theorem cleanText_ten_printable_empty :
    tEuroC5.length = 10 ∧ tEuroC5.countP isPrintableChar = 10 ∧
    cleanText tEuroC5 = [] := by
  refine ⟨by decide, by decide, by decide⟩

/-- Claim C5, amended: for every text with at least 10 characters that are
neither JavaScript whitespace nor in any of the character classes stripped
by the normalizer, the normalization is non-empty and its result contains no
control characters. -/
theorem cleanText_good_nonempty (t : List Char)
    (h : 10 ≤ List.countP isGoodChar t) :
    cleanText t ≠ [] ∧ ∀ c ∈ cleanText t, isControlChar c = false := by
  have hcc : 10 ≤ (cleanCore t).length :=
    le_trans (le_trans h (countP_cleanCore_good t)) (List.countP_le_length _)
  have ht : t ≠ [] := by
    intro he
    rw [he] at h
    simp at h
  have h10 : ¬(cleanCore t).length < 10 := by omega
  constructor
  · by_cases h8k : (cleanCore t).length > 8000
    · rw [cleanText_eq_take ht h10 h8k]
      have hlen : ((cleanCore t).take 8000).length = min 8000 (cleanCore t).length :=
        List.length_take 8000 (cleanCore t)
      intro hnil
      rw [hnil] at hlen
      simp at hlen
      omega
    · rw [cleanText_eq_core ht h10 h8k]
      intro hnil
      rw [hnil] at hcc
      simp at hcc
  · intro c hc
    have hmem : c ∈ cleanCore t := by
      by_cases h8k : (cleanCore t).length > 8000
      · rw [cleanText_eq_take ht h10 h8k] at hc
        exact List.take_subset _ _ hc
      · rw [cleanText_eq_core ht h10 h8k] at hc
        exact hc
    exact not_control_of_not_removed (cleanCore_mem_props t c hmem).1

/-- Claim C5, witness: the amended theorem applied to ten letters. -/
theorem cleanText_good_nonempty_witness :
    cleanText tenAs ≠ [] ∧ ∀ c ∈ cleanText tenAs, isControlChar c = false :=
  cleanText_good_nonempty tenAs (by decide)

theorem chunkLoop_exit (maxLen : Int) (text : List Char) (n : Nat) (i : Int)
    (acc : List (List Char)) (h : (text.length : Int) ≤ i) :
    chunkLoop maxLen text n i acc = some acc.reverse := by
  cases n with
  | zero => simp [chunkLoop, not_lt.mpr h]
  | succ m => simp [chunkLoop, not_lt.mpr h]

theorem jsSlice_full (s : List Char) (b : Int) (hb : (s.length : Int) ≤ b) :
    jsSlice s 0 b = s := by
  unfold jsSlice
  have h0 : ¬((0 : Int) < 0) := by omega
  have hble : ¬(b < 0) := by omega
  have hmin : min (0 : Int) (s.length : Int) = 0 := by omega
  have hmax : min b (s.length : Int) = (s.length : Int) := by omega
  simp only [if_neg h0, if_neg hble, hmin, hmax]
  rw [Int.toNat_natCast, Int.toNat_zero, List.take_length, List.drop_zero]

theorem chunkLoop_terminates (maxLen : Int) (text : List Char)
    (hm : 200 < maxLen) (n : Nat) :
    ∀ (i : Int) (acc : List (List Char)),
      (text.length : Int) ≤ i + (n : Int) * (maxLen - 200) →
      (chunkLoop maxLen text n i acc).isSome = true := by
  induction n with
  | zero =>
    intro i acc h
    simp only [Nat.cast_zero, zero_mul, add_zero] at h
    rw [chunkLoop_exit maxLen text 0 i acc h]
    rfl
  | succ m ih =>
    intro i acc h
    by_cases hi : i < (text.length : Int)
    · show (chunkLoop maxLen text (m + 1) i acc).isSome = true
      rw [show chunkLoop maxLen text (m + 1) i acc =
          chunkLoop maxLen text m (i + (maxLen - 200))
            (if cleanText (jsSlice text i (i + maxLen)) = [] then acc
             else cleanText (jsSlice text i (i + maxLen)) :: acc) from by
        simp [chunkLoop, hi]]
      apply ih
      push_cast at h ⊢
      nlinarith [h]
    · rw [chunkLoop_exit maxLen text (m + 1) i acc (not_lt.mp hi)]
      rfl

theorem chunkLoop_stuck (maxLen : Int) (text : List Char)
    (hm : maxLen ≤ 200) (hpos : 0 < text.length) (n : Nat) :
    ∀ (i : Int) (acc : List (List Char)), i ≤ 0 →
      chunkLoop maxLen text n i acc = none := by
  induction n with
  | zero =>
    intro i acc hi
    have : i < (text.length : Int) := by
      have : (0 : Int) < (text.length : Int) := by exact_mod_cast hpos
      omega
    simp [chunkLoop, this]
  | succ m ih =>
    intro i acc hi
    have hlt : i < (text.length : Int) := by
      have : (0 : Int) < (text.length : Int) := by exact_mod_cast hpos
      omega
    show chunkLoop maxLen text (m + 1) i acc = none
    rw [show chunkLoop maxLen text (m + 1) i acc =
        chunkLoop maxLen text m (i + (maxLen - 200))
          (if cleanText (jsSlice text i (i + maxLen)) = [] then acc
           else cleanText (jsSlice text i (i + maxLen)) :: acc) from by
      simp [chunkLoop, hlt]]
    exact ih _ _ (by omega)

/-- Claim C10: the chunkText loop terminates for every text whenever
maxLen exceeds 200, and for every non-empty text with maxLen at most 200 the
start offset never advances past the text (the step maxLen - 200 is zero or
negative), so no amount of fuel completes the loop. -/
theorem chunkText_termination :
    (∀ (text : List Char) (maxLen : Int), 200 < maxLen →
      (chunkText text.length text maxLen).isSome = true) ∧
    (∀ (text : List Char) (maxLen : Int) (fuel : Nat),
      text ≠ [] → maxLen ≤ 200 → chunkText fuel text maxLen = none) := by
  constructor
  · intro text maxLen hm
    unfold chunkText
    apply chunkLoop_terminates maxLen text hm
    have h1 : (1 : Int) ≤ maxLen - 200 := by omega
    have h0 : (0 : Int) ≤ (text.length : Int) := by positivity
    have := le_mul_of_one_le_right h0 h1
    omega
  · intro text maxLen fuel hne hm
    unfold chunkText
    exact chunkLoop_stuck maxLen text hm (List.length_pos.mpr hne) fuel 0 []
      le_rfl

/-- Claim C10, witness: the termination theorem at a concrete eleven
character text, with maxLen 1000 and with maxLen 200. -/
theorem chunkText_termination_witness :
    (chunkText ("hello world").toList.length ("hello world").toList 1000).isSome
      = true ∧
    chunkText 5 ("hello world").toList 200 = none :=
  ⟨chunkText_termination.1 ("hello world").toList 1000 (by decide),
   chunkText_termination.2 ("hello world").toList 200 5 (by decide) (by decide)⟩

set_option maxRecDepth 100000 in
/-- Claim C2, counterexample: a 900-character text with maxLen 1000
satisfies text.length at most maxLen, yet chunkText produces two chunks: the
window at offset 0 covers the whole text and the overlap window at offset
800 still yields a second 100-character chunk that survives normalization. -/
theorem chunkText_short_text_two_chunks :
    a900C2.length ≤ 1000 ∧
    chunkText 3 a900C2 1000 = some [a900C2, List.replicate 100 'a'] := by
  refine ⟨by decide, by decide⟩

/-- Claim C2, amended: one chunk (up to normalization rejection) is
guaranteed only when the text is nonempty and its length is at most
maxLen - 200: then the first window covers the whole text and the offset
immediately leaves the text.  When maxLen - 200 < text.length <= maxLen the
loop runs further overlap windows which may emit additional chunks, as the
counterexample shows. -/
theorem chunkText_single_window (text : List Char) (maxLen : Int) (fuel : Nat)
    (hpos : 0 < text.length) (hlen : (text.length : Int) + 200 ≤ maxLen)
    (hfuel : 1 ≤ fuel) :
    chunkText fuel text maxLen =
      some (if cleanText text = [] then [] else [cleanText text]) := by
  obtain ⟨m, rfl⟩ : ∃ m, fuel = m + 1 := by
    cases fuel with
    | zero => omega
    | succ k => exact ⟨k, rfl⟩
  unfold chunkText
  have hlt : (0 : Int) < (text.length : Int) := by exact_mod_cast hpos
  have hslice : jsSlice text 0 (0 + maxLen) = text := by
    rw [zero_add]
    exact jsSlice_full text maxLen (by omega)
  rw [show chunkLoop maxLen text (m + 1) 0 [] =
      chunkLoop maxLen text m (0 + (maxLen - 200))
        (if cleanText (jsSlice text 0 (0 + maxLen)) = [] then []
         else cleanText (jsSlice text 0 (0 + maxLen)) :: []) from by
    simp [chunkLoop, hlt]]
  rw [hslice, chunkLoop_exit maxLen text m (0 + (maxLen - 200)) _ (by omega)]
  by_cases hc : cleanText text = []
  · simp [hc]
  · simp [hc]

/-- Claim C2, amended witness: a ten-character text with maxLen 210 produces
exactly its own cleaned form as the single chunk. -/
theorem chunkText_single_window_witness :
    chunkText 1 tenAs 210 = some [tenAs] := by
  have h := chunkText_single_window tenAs 210 1 (by decide) (by decide)
    (by decide)
  rw [h]
  decide

/-- Claim C6: when every input text normalizes to empty (in particular for
the empty list), embedTexts fails with the no-valid-input error and makes no
remote call at all: the batch-call and single-call traces are both empty. -/
theorem embedTexts_all_empty_fails_fast (o : EmbedOracle)
    (texts : List (List Char)) (h : ∀ t ∈ texts, cleanText t = []) :
    embedTexts o texts =
      ⟨Except.error EmbedError.noValidInput, [], []⟩ := by
  have hf : (texts.map cleanText).filter (fun t => 0 < t.length) = [] := by
    rw [List.filter_eq_nil_iff]
    intro a ha
    rw [List.mem_map] at ha
    obtain ⟨t, ht, rfl⟩ := ha
    rw [h t ht]
    simp
  unfold embedTexts
  rw [hf]
  rfl

/-- Claim C6, witness: the fail-fast theorem applied to a five-character
input (below the 10-character minimum) with an oracle that would answer any
call. -/
theorem embedTexts_all_empty_fails_fast_witness :
    embedTexts cexO6 [("short").toList] =
      ⟨Except.error EmbedError.noValidInput, [], []⟩ :=
  embedTexts_all_empty_fails_fast cexO6 [("short").toList] (by decide)

/-- Claim C1, counterexample: a batch call that fails by returning an empty
embeddings field does not retry the batch texts individually.  The oracle
returns ok with an empty embeddings list for every batch and would answer
every single-item call, yet the trace shows the batch was sent, no
single-item call was made, and the text got no embedding. -/
theorem embedTexts_empty_field_no_retry :
    cexO1.batch [tenAs] = BatchResult.ok (some []) ∧
    cexO1.single tenAs = some [7] ∧
    (embedTexts cexO1 [tenAs]).batchCalls = [[tenAs]] ∧
    (embedTexts cexO1 [tenAs]).singleCalls = [] ∧
    (embedTexts cexO1 [tenAs]).result = Except.ok [] := by
  refine ⟨rfl, rfl, rfl, rfl, rfl⟩

/-- Claim C1, amended: the operation is never aborted by a failing batch,
and the aggregate result is the concatenation of the per-batch
contributions; when a batch call throws, every text of that batch is
retried via the single-item call and an individual failure skips exactly
that text (the contribution is the filterMap of the single-item oracle over
the batch); but a batch call that returns a malformed response or an empty
embeddings field skips the whole batch with no individual retries, as the
counterexample shows. -/
theorem embedTexts_batch_fallback (o : EmbedOracle)
    (texts : List (List Char)) (b : List (List Char))
    (hb : b ∈ (embedTexts o texts).batchCalls) :
    (embedTexts o texts).result =
      Except.ok (((embedTexts o texts).batchCalls.map
        (fun bb => (runBatch o bb).1)).flatten) ∧
    (o.batch b = BatchResult.throw →
      (∀ t ∈ b, t ∈ (embedTexts o texts).singleCalls) ∧
      (runBatch o b).1 = b.filterMap o.single) ∧
    ((o.batch b = BatchResult.ok none ∨ o.batch b = BatchResult.ok (some [])) →
      (runBatch o b).1 = [] ∧ (runBatch o b).2 = []) := by
  by_cases hc : ((texts.map cleanText).filter (fun t => 0 < t.length)).length = 0
  · exfalso
    have : (embedTexts o texts).batchCalls = [] := by
      unfold embedTexts
      rw [if_pos hc]
    rw [this] at hb
    exact List.not_mem_nil b hb
  · have hunfold : embedTexts o texts =
        ⟨Except.ok (((chunksOf 10 ((texts.map cleanText).filter
            (fun t => 0 < t.length))).map (fun bb => (runBatch o bb).1)).flatten),
         chunksOf 10 ((texts.map cleanText).filter (fun t => 0 < t.length)),
         ((chunksOf 10 ((texts.map cleanText).filter
            (fun t => 0 < t.length))).map (fun bb => (runBatch o bb).2)).flatten⟩ := by
      unfold embedTexts
      rw [if_neg hc]
    refine ⟨?_, ?_, ?_⟩
    · rw [hunfold]
    · intro hthrow
      constructor
      · intro t ht
        rw [hunfold] at hb ⊢
        simp only [List.mem_flatten]
        refine ⟨(runBatch o b).2, List.mem_map_of_mem _ hb, ?_⟩
        unfold runBatch
        rw [hthrow]
        exact ht
      · unfold runBatch
        rw [hthrow]
    · intro hfail
      unfold runBatch
      rcases hfail with hf | hf
      · rw [hf]
        exact ⟨rfl, rfl⟩
      · rw [hf]
        exact ⟨rfl, rfl⟩

/-- Claim C1, amended witness: the fallback theorem applied to a throwing
batch of two valid chunks where the single-item call succeeds on the first
text and throws on the second: both texts are retried individually, and
only the failing one is skipped. -/
theorem embedTexts_batch_fallback_witness :
    (∀ t ∈ [tenAs, tenBs], t ∈ (embedTexts cexO1b [tenAs, tenBs]).singleCalls) ∧
    (runBatch cexO1b [tenAs, tenBs]).1 = [[5]] := by
  have h := embedTexts_batch_fallback cexO1b [tenAs, tenBs] [tenAs, tenBs]
    (by decide)
  have h2 := h.2.1 rfl
  refine ⟨h2.1, ?_⟩
  rw [h2.2]
  decide

theorem deleteSessionVectors_ok (o : PineOracle) (sessionId : String) :
    deleteSessionVectors o sessionId = Except.ok () := by
  unfold deleteSessionVectors
  cases deleteSessionVectorsBody o sessionId <;> rfl

/-- Claim C7: a failure anywhere inside deleteSessionVectors (the query or
any delete batch) is never propagated: for every oracle behaviour the
function returns normally, and the upload route's response and unlink
behaviour do not depend on the deletion-phase oracle at all, so the
orchestrator proceeds with the upload regardless. -/
theorem deleteSessionVectors_best_effort :
    (∀ (o : PineOracle) (sessionId : String),
      deleteSessionVectors o sessionId = Except.ok ()) ∧
    (∀ (p1 p2 : PineOracle) (extract : Except String (List Char))
      (embed : EmbedOracle) (upsert : List VectorRecord → Except String Unit)
      (now : String) (file : Option FileMeta) (sessionId : Option String),
      uploadHandler ⟨p1, extract, embed, upsert, now⟩ file sessionId =
        uploadHandler ⟨p2, extract, embed, upsert, now⟩ file sessionId) := by
  constructor
  · exact deleteSessionVectors_ok
  · intro p1 p2 extract embed upsert now file sessionId
    cases file <;> cases sessionId <;> simp only [uploadHandler]

/-- Claim C8: when the session-scoped similarity query returns zero matches,
the ask route returns a successful response with the canned no-information
answer and an empty sources list, and the generation service is not
called. -/
theorem askHandler_zero_matches (o : AskOracle) (question : List Char)
    (sid : String) (topK : Nat) (v : List Int)
    (hq : question.isEmpty = false)
    (hclean : (cleanText question).isEmpty = false)
    (hemb : o.embedQ (cleanText question) = Except.ok v)
    (hquery : o.query v topK sid = Except.ok []) :
    askHandler o question (some sid) topK =
      (AskResp.answerResp noInfoAnswer [] none, false) := by
  simp [askHandler, hq, hclean, hemb, hquery]

/-- Claim C8, witness: the zero-match theorem applied to a concrete oracle
whose query returns no matches. -/
theorem askHandler_zero_matches_witness :
    askHandler cexO8 tenAs (some "S2") 4 =
      (AskResp.answerResp noInfoAnswer [] none, false) :=
  askHandler_zero_matches cexO8 tenAs "S2" 4 [1] (by decide) (by decide)
    rfl rfl

/-- Claim C9: buildVectors creates exactly min(number of embeddings, number
of chunks) records, and record i pairs embedding i with chunk i, carries the
id sessionId_i, and stores the chunk text, source filename, sequence index,
session id, and timestamp in its metadata. -/
theorem buildVectors_aligned (sessionId source uploadedAt : String)
    (validChunks : List (List Char)) (embeddings : List (List Int)) :
    (buildVectors sessionId source uploadedAt validChunks embeddings).length =
      min embeddings.length validChunks.length ∧
    ∀ i, i < min embeddings.length validChunks.length →
      (buildVectors sessionId source uploadedAt validChunks embeddings)[i]? =
        some
          { id := sessionId ++ "_" ++ toString i
            values := embeddings.getD i []
            metadata :=
              { text := validChunks.getD i []
                source := source
                chunk_index := i
                session_id := sessionId
                uploaded_at := uploadedAt } } := by
  constructor
  · unfold buildVectors
    rw [List.length_mapIdx, List.length_take]
    omega
  · intro i hi
    unfold buildVectors
    rw [List.getElem?_mapIdx, List.getElem?_take]
    rw [if_pos hi]
    have hie : i < embeddings.length := lt_of_lt_of_le hi (min_le_left _ _)
    have hgd : embeddings.getD i [] = embeddings[i] :=
      List.getD_eq_getElem embeddings [] hie
    rw [List.getElem?_eq_getElem hie, hgd]
    rfl

/-- Claim C9, witness: the alignment theorem applied at index 1 with three
embeddings and two chunks: exactly two records are built, and record 1 pairs
the second chunk with the second embedding. -/
theorem buildVectors_aligned_witness :
    (buildVectors "S1" "doc.pdf" "T0" [tenAs, tenBs] [[1], [2], [3]]).length
        = 2 ∧
    (buildVectors "S1" "doc.pdf" "T0" [tenAs, tenBs] [[1], [2], [3]])[1]? =
      some
        { id := "S1" ++ "_" ++ toString 1
          values := [2]
          metadata :=
            { text := tenBs
              source := "doc.pdf"
              chunk_index := 1
              session_id := "S1"
              uploaded_at := "T0" } } := by
  have h := buildVectors_aligned "S1" "doc.pdf" "T0" [tenAs, tenBs]
    [[1], [2], [3]]
  refine ⟨h.1, ?_⟩
  have h2 := h.2 1 (by decide)
  rw [h2]
  rfl

/-- Claim C3: on the early-return path taken when a file was received but
the request carries no session id, the upload route answers 400 without ever
calling unlink, so the temporary uploaded file is not removed on that exit
path; the same oracle with a session id present does unlink the file.  This
contradicts the stated cleanup-on-every-exit-path policy. -/
theorem uploadHandler_missing_session_leaks_file :
    uploadHandler cexO3 (some cexFile) none =
      (UploadResp.badRequest "Missing session ID", false) ∧
    (uploadHandler cexO3 (some cexFile) (some "S1")).2 = true := by
  refine ⟨rfl, rfl⟩
